import Mathlib

/-
Shallow embedding of the `sample1` TransparentCache package
(the finished implementation of `cache.go`: `TransparentCache`,
`PriceCacheEntry`, `GetPriceFor`, `GetPricesFor`; the repository also
ships the original challenge scaffold of `cache.go` whose `GetPriceFor`
still carries the `TODO` for the max-age check — the finished code is the
one the package documentation describes, and it is the one embedded here).

Modelling choices:
- `time.Time` (UTC) and `time.Duration` are both nanosecond counts,
  modelled as `Int`.
- `float64` prices are modelled as exact values (`Int`): the cache never
  performs arithmetic on a price, it only moves values around, so no
  floating-point behaviour is observable in the properties below.
- Go `error` values are their message strings.
- `sync.Map` stores `interface{}` values; the dynamic type of a stored
  value is modelled by the sum type `StoredValue` (`PriceCacheEntry` as
  stored by the finished code, or a raw `float64` as another code path
  could store), so the type assertion in `GetPriceFor` is a real,
  fallible operation.
- The map itself is an association list with `Load`/`Store`/`Delete`.
- Each call to `GetPriceFor` captures `now := time.Now().UTC()`; the
  embedding takes `now` as an argument.
- `GetPricesFor` launches one errgroup task per item code; each task runs
  the whole `GetPriceFor` body and appends its result under a mutex.  The
  embedding sequentialises the tasks in their completion order: it takes
  the list of (itemCode, captured now) pairs in the order the tasks
  complete, which is some permutation of the input item codes.  A task
  that fails appends nothing; `errgroup.Group.Wait` returns the error of
  the first task observed to fail, and all tasks run to completion.
-/

namespace Sample1

abbrev Price := Int

abbrev GoError := String

abbrev Time := Int

abbrev Duration := Int

/-- Cache entry of the finished implementation: a price and the UTC
timestamp at which it was obtained from the upstream service. -/
structure PriceCacheEntry where
  price : Price
  timestamp : Time
deriving DecidableEq, Repr

/-- A value held in the `sync.Map` together with its dynamic type: the
finished code stores `PriceCacheEntry` values, but the map is untyped, so
a raw `float64` (as the challenge scaffold stores) is also possible. -/
inductive StoredValue where
  | entry : PriceCacheEntry → StoredValue
  | float : Price → StoredValue
deriving DecidableEq, Repr

/-- The contents of the `prices sync.Map`, as an association list. -/
abbrev PricesMap := List (String × StoredValue)

/-- `sync.Map.Load`: the value currently stored under `k`, if any. -/
def mapLoad (m : PricesMap) (k : String) : Option StoredValue :=
  match m with
  | [] => none
  | (k', v) :: rest => if k' = k then some v else mapLoad rest k

/-- `sync.Map.Store`: unconditional overwrite of the value under `k`. -/
def mapStore (m : PricesMap) (k : String) (v : StoredValue) : PricesMap :=
  match m with
  | [] => [(k, v)]
  | (k', v') :: rest =>
      if k' = k then (k, v) :: rest else (k', v') :: mapStore rest k v

/-- `sync.Map.Delete`: removes the mapping under `k`; no-op if absent. -/
def mapDelete (m : PricesMap) (k : String) : PricesMap :=
  match m with
  | [] => []
  | (k', v') :: rest =>
      if k' = k then mapDelete rest k else (k', v') :: mapDelete rest k

/-- The cache: the injected upstream `PriceService` (one lookup is a
function from an item code to a price or an error), the fixed `maxAge`,
and the `prices` map. -/
structure TransparentCache where
  actualPriceService : String → Except GoError Price
  maxAge : Duration
  prices : PricesMap

/-- `NewTransparentCache`: fresh cache with an empty prices map. -/
def NewTransparentCache (actualPriceService : String → Except GoError Price)
    (maxAge : Duration) : TransparentCache :=
  ⟨actualPriceService, maxAge, []⟩

/-- The observable outcome of one `GetPriceFor` call: the two Go return
values (`price`, `error`), the cache after the call, and the list of item
codes for which the upstream service was invoked during the call. -/
structure GetPriceOut where
  price : Price
  error : Option GoError
  cache : TransparentCache
  serviceCalls : List String

/-- The tail of `GetPriceFor` after the cache gave no valid entry:
`price, err := c.actualPriceService.GetPriceFor(itemCode)`, error
wrapping on failure, and construction + `Store` of the fresh
`PriceCacheEntry{price, now}` on success. -/
def fetchFromService (c : TransparentCache) (itemCode : String)
    (now : Time) : GetPriceOut :=
  match c.actualPriceService itemCode with
  | .error err =>
      ⟨0, some ("getting price from service : " ++ err), c, [itemCode]⟩
  | .ok price =>
      let priceCacheEntry : PriceCacheEntry := ⟨price, now⟩
      ⟨priceCacheEntry.price, none,
        ⟨c.actualPriceService, c.maxAge,
          mapStore c.prices itemCode (.entry priceCacheEntry)⟩,
        [itemCode]⟩

/-- `GetPriceFor` of the finished implementation: capture `now`, `Load`
the entry; if present, type-assert it to `PriceCacheEntry` (error on
failure); if still valid (`now` before `timestamp + maxAge`) return its
price; if expired, `Delete` it; then (also when absent) fall through to
the upstream fetch. -/
def GetPriceFor (c : TransparentCache) (itemCode : String)
    (now : Time) : GetPriceOut :=
  match mapLoad c.prices itemCode with
  | some retrieved =>
      match retrieved with
      | .entry priceCacheEntry =>
          if now < priceCacheEntry.timestamp + c.maxAge then
            ⟨priceCacheEntry.price, none, c, []⟩
          else
            fetchFromService
              ⟨c.actualPriceService, c.maxAge, mapDelete c.prices itemCode⟩
              itemCode now
      | .float _ => ⟨0, some "error when casting", c, []⟩
  | none => fetchFromService c itemCode now

/-- The observable outcome of one `GetPricesFor` call: the two Go return
values, the cache after the call, and the upstream invocations made. -/
structure GetPricesOut where
  prices : List Price
  error : Option GoError
  cache : TransparentCache
  serviceCalls : List String

/-- `GetPricesFor`, sequentialised in task completion order: `sched` is
the list of (item code, captured `now`) pairs in the order the errgroup
tasks complete.  Each task runs `GetPriceFor`; a succeeding task appends
its price under the mutex, a failing task appends nothing; the error of
the first failing task is the one `Wait` returns; every task runs. -/
def GetPricesFor (c : TransparentCache)
    (sched : List (String × Time)) : GetPricesOut :=
  match sched with
  | [] => ⟨[], none, c, []⟩
  | (itemCode, now) :: rest =>
      let out := GetPriceFor c itemCode now
      let later := GetPricesFor out.cache rest
      match out.error with
      | none =>
          ⟨out.price :: later.prices, later.error, later.cache,
            out.serviceCalls ++ later.serviceCalls⟩
      | some e =>
          ⟨later.prices, some e, later.cache,
            out.serviceCalls ++ later.serviceCalls⟩

/-! ### Association-list map laws -/

theorem mapLoad_mapStore_self (m : PricesMap) (k : String) (v : StoredValue) :
    mapLoad (mapStore m k v) k = some v := by
  induction m with
  | nil => simp [mapStore, mapLoad]
  | cons hd tl ih =>
      obtain ⟨k', v'⟩ := hd
      by_cases h : k' = k <;> simp [mapStore, mapLoad, h, ih]

theorem mapLoad_mapStore_other (m : PricesMap) (k k' : String)
    (v : StoredValue) (h : k' ≠ k) :
    mapLoad (mapStore m k v) k' = mapLoad m k' := by
  have hne : ¬k = k' := fun h' => h h'.symm
  induction m with
  | nil => simp [mapStore, mapLoad, hne]
  | cons hd tl ih =>
      obtain ⟨k₀, v₀⟩ := hd
      by_cases h₀ : k₀ = k
      · subst h₀
        simp [mapStore, mapLoad, hne]
      · simp [mapStore, mapLoad, h₀, ih]

theorem mapLoad_mapDelete_self (m : PricesMap) (k : String) :
    mapLoad (mapDelete m k) k = none := by
  induction m with
  | nil => simp [mapDelete, mapLoad]
  | cons hd tl ih =>
      obtain ⟨k₀, v₀⟩ := hd
      by_cases h₀ : k₀ = k <;> simp [mapDelete, mapLoad, h₀, ih]

theorem mapLoad_mapDelete_other (m : PricesMap) (k k' : String) (h : k' ≠ k) :
    mapLoad (mapDelete m k) k' = mapLoad m k' := by
  have hne : ¬k = k' := fun h' => h h'.symm
  induction m with
  | nil => simp [mapDelete, mapLoad]
  | cons hd tl ih =>
      obtain ⟨k₀, v₀⟩ := hd
      by_cases h₀ : k₀ = k
      · subst h₀
        simp [mapDelete, mapLoad, hne, ih]
      · simp [mapDelete, mapLoad, h₀, ih]

/-! ### Small helper lemmas about `GetPriceFor` -/

theorem fetchFromService_serviceCalls (c : TransparentCache)
    (itemCode : String) (now : Time) :
    (fetchFromService c itemCode now).serviceCalls = [itemCode] := by
  cases h : c.actualPriceService itemCode <;> simp [fetchFromService, h]

theorem fetchFromService_config (c : TransparentCache) (itemCode : String)
    (now : Time) :
    (fetchFromService c itemCode now).cache.actualPriceService
        = c.actualPriceService ∧
    (fetchFromService c itemCode now).cache.maxAge = c.maxAge := by
  cases h : c.actualPriceService itemCode <;> simp [fetchFromService, h]

theorem GetPriceFor_config (c : TransparentCache) (itemCode : String)
    (now : Time) :
    (GetPriceFor c itemCode now).cache.actualPriceService
        = c.actualPriceService ∧
    (GetPriceFor c itemCode now).cache.maxAge = c.maxAge := by
  unfold GetPriceFor
  cases hl : mapLoad c.prices itemCode with
  | none => exact fetchFromService_config c itemCode now
  | some v =>
      cases v with
      | entry e =>
          by_cases hv : now < e.timestamp + c.maxAge
          · simp [hv]
          · simpa [hv] using fetchFromService_config
              ⟨c.actualPriceService, c.maxAge, mapDelete c.prices itemCode⟩
              itemCode now
      | float p => simp

/-- No valid entry for `k` at `now`: the key is absent, or its entry is
expired (`timestamp + maxAge ≤ now`).  A key holding a non-entry value
does not qualify (that is the type-assertion failure path instead). -/
def hasNoValidEntry (c : TransparentCache) (k : String) (now : Time) : Bool :=
  match mapLoad c.prices k with
  | none => true
  | some (.entry e) => decide (e.timestamp + c.maxAge ≤ now)
  | some (.float _) => false

/-! ### C1: valid cache hit -/

/-- C1: if at the moment `GetPriceFor(k)` captures its current time `now`
the entry store holds an entry for `k` with price `p` and fetch time `t`
such that `now < t + maxAge`, the call returns `p` with no error, makes
no upstream call, and leaves the cache — in particular the entry store —
unchanged. -/
theorem getPriceFor_valid_hit (c : TransparentCache) (itemCode : String)
    (p : Price) (t : Time) (now : Time)
    (hload : mapLoad c.prices itemCode = some (.entry ⟨p, t⟩))
    (hvalid : now < t + c.maxAge) :
    GetPriceFor c itemCode now = ⟨p, none, c, []⟩ := by
  simp [GetPriceFor, hload, hvalid]

def svcDown : String → Except GoError Price := fun _ => .error "down"

def cacheWithApple : TransparentCache :=
  ⟨svcDown, 10, [("apple", .entry ⟨7, 0⟩)]⟩

/-- C1 witness: a concrete valid hit. -/
theorem getPriceFor_valid_hit_witness :
    mapLoad cacheWithApple.prices "apple" = some (.entry ⟨7, 0⟩) ∧
    (5 : Time) < 0 + cacheWithApple.maxAge ∧
    GetPriceFor cacheWithApple "apple" 5 = ⟨7, none, cacheWithApple, []⟩ :=
  ⟨by decide, by decide,
    getPriceFor_valid_hit cacheWithApple "apple" 7 0 5 (by decide) (by decide)⟩

/-! ### C2: expired entry is evicted and refetched -/

/-- C2: if the store holds an entry for `itemCode` whose fetch time `t`
is expired at the captured `now` (`t + maxAge ≤ now`; validity is the
strict `now < t + maxAge`), then `GetPriceFor` evicts the entry and makes
exactly one upstream call for `itemCode`; on upstream success it returns
the price the upstream returns at that moment (even if it differs from
the cached `p`) and stores it over the evicted map; on upstream failure
the map is left at the mere eviction. -/
theorem getPriceFor_expired_evicts_and_refetches (c : TransparentCache)
    (itemCode : String) (p : Price) (t : Time) (now : Time)
    (hload : mapLoad c.prices itemCode = some (.entry ⟨p, t⟩))
    (hexp : t + c.maxAge ≤ now) :
    (GetPriceFor c itemCode now).serviceCalls = [itemCode] ∧
    (∀ q, c.actualPriceService itemCode = .ok q →
      GetPriceFor c itemCode now =
        ⟨q, none,
          ⟨c.actualPriceService, c.maxAge,
            mapStore (mapDelete c.prices itemCode) itemCode
              (.entry ⟨q, now⟩)⟩,
          [itemCode]⟩) ∧
    (∀ e, c.actualPriceService itemCode = .error e →
      (GetPriceFor c itemCode now).cache.prices
        = mapDelete c.prices itemCode) := by
  have hnv : ¬ now < t + c.maxAge := not_lt.mpr hexp
  refine ⟨?_, ?_, ?_⟩
  · cases hs : c.actualPriceService itemCode <;>
      simp [GetPriceFor, hload, hnv, fetchFromService, hs]
  · intro q hq
    simp [GetPriceFor, hload, hnv, fetchFromService, hq]
  · intro e he
    simp [GetPriceFor, hload, hnv, fetchFromService, he]

def svcNine : String → Except GoError Price := fun _ => .ok 9

def cacheStaleApple : TransparentCache :=
  ⟨svcNine, 10, [("apple", .entry ⟨7, 0⟩)]⟩

/-- C2 witness: a stale entry with price 7 is evicted and the upstream's
current, different price 9 is returned and stored with the new `now`. -/
theorem getPriceFor_expired_evicts_and_refetches_witness :
    mapLoad cacheStaleApple.prices "apple" = some (.entry ⟨7, 0⟩) ∧
    (0 : Time) + cacheStaleApple.maxAge ≤ 50 ∧
    (GetPriceFor cacheStaleApple "apple" 50).serviceCalls = ["apple"] ∧
    GetPriceFor cacheStaleApple "apple" 50 =
      ⟨9, none,
        ⟨cacheStaleApple.actualPriceService, cacheStaleApple.maxAge,
          mapStore (mapDelete cacheStaleApple.prices "apple") "apple"
            (.entry ⟨9, 50⟩)⟩,
        ["apple"]⟩ := by
  have h := getPriceFor_expired_evicts_and_refetches cacheStaleApple "apple"
    7 0 50 (by decide) (by decide)
  exact ⟨by decide, by decide, h.1, h.2.1 9 rfl⟩

/-! ### C6: a miss stores a fresh entry stamped with this call's `now` -/

/-- C6: when `GetPriceFor(itemCode)` finds no valid entry (absent, or
expired and hence about to be evicted) and the upstream lookup succeeds
with price `p`, it returns `p` with no error and stores a cache entry
whose price is `p` and whose `timestamp` is exactly the `now` captured at
the start of this call — never a time copied from a prior entry. -/
theorem getPriceFor_miss_stores_fresh_entry (c : TransparentCache)
    (itemCode : String) (now : Time) (p : Price)
    (hmiss : hasNoValidEntry c itemCode now = true)
    (hok : c.actualPriceService itemCode = .ok p) :
    (GetPriceFor c itemCode now).price = p ∧
    (GetPriceFor c itemCode now).error = none ∧
    mapLoad (GetPriceFor c itemCode now).cache.prices itemCode
      = some (.entry ⟨p, now⟩) := by
  unfold hasNoValidEntry at hmiss
  cases hl : mapLoad c.prices itemCode with
  | none =>
      simp [GetPriceFor, hl, fetchFromService, hok, mapLoad_mapStore_self]
  | some v =>
      cases v with
      | entry e =>
          rw [hl] at hmiss
          have hexp : e.timestamp + c.maxAge ≤ now := by
            simpa using hmiss
          have hnv : ¬ now < e.timestamp + c.maxAge := not_lt.mpr hexp
          simp [GetPriceFor, hl, hnv, fetchFromService, hok,
            mapLoad_mapStore_self]
      | float q => rw [hl] at hmiss; simp at hmiss

def svcTwenty : String → Except GoError Price := fun _ => .ok 20

def cacheColdStore : TransparentCache :=
  ⟨svcTwenty, 10, [("banana", .entry ⟨3, 0⟩)]⟩

/-- C6 witness: a cold key is fetched upstream and stored with the
captured `now` as its timestamp. -/
theorem getPriceFor_miss_stores_fresh_entry_witness :
    hasNoValidEntry cacheColdStore "apple" 42 = true ∧
    cacheColdStore.actualPriceService "apple" = .ok 20 ∧
    (GetPriceFor cacheColdStore "apple" 42).price = 20 ∧
    (GetPriceFor cacheColdStore "apple" 42).error = none ∧
    mapLoad (GetPriceFor cacheColdStore "apple" 42).cache.prices "apple"
      = some (.entry ⟨20, 42⟩) := by
  have h := getPriceFor_miss_stores_fresh_entry cacheColdStore "apple" 42 20
    (by decide) rfl
  exact ⟨by decide, rfl, h.1, h.2.1, h.2.2⟩

/-! ### C3: upstream failure — corrected -/

def svcBoom : String → Except GoError Price := fun _ => .error "boom"

def cacheStaleForBoom : TransparentCache :=
  ⟨svcBoom, 10, [("apple", .entry ⟨7, 0⟩)]⟩

/-- C3 counterexample: the claim says that on an upstream failure the
entry store is unchanged by the call.  On a cache holding an expired
entry for "apple", the call evicts the entry before the upstream lookup,
so even though the lookup fails and an error is returned, the entry store
after the call differs from the one before it. -/
theorem getPriceFor_failure_can_change_store :
    cacheStaleForBoom.actualPriceService "apple" = .error "boom" ∧
    (GetPriceFor cacheStaleForBoom "apple" 50).error.isSome = true ∧
    (GetPriceFor cacheStaleForBoom "apple" 50).cache.prices
      ≠ cacheStaleForBoom.prices := by
  exact ⟨rfl, by decide, by decide⟩

/-- C3 amended: if the upstream lookup for `k` fails (the call reached
the upstream because no valid entry was present), `GetPriceFor(k)`
returns an error wrapping the failure and stores nothing: after the call
`k` is absent from the store (the expired entry, if any, was evicted),
every other key is untouched, and a subsequent `GetPriceFor(k)` invokes
the upstream again rather than returning a cached error or placeholder. -/
theorem getPriceFor_failure_stores_nothing (c : TransparentCache)
    (k : String) (now : Time) (e : GoError)
    (hmiss : hasNoValidEntry c k now = true)
    (herr : c.actualPriceService k = .error e) :
    (GetPriceFor c k now).error
      = some ("getting price from service : " ++ e) ∧
    (GetPriceFor c k now).price = 0 ∧
    mapLoad (GetPriceFor c k now).cache.prices k = none ∧
    (∀ k', k' ≠ k →
      mapLoad (GetPriceFor c k now).cache.prices k' = mapLoad c.prices k') ∧
    (∀ now', (GetPriceFor (GetPriceFor c k now).cache k now').serviceCalls
      = [k]) := by
  unfold hasNoValidEntry at hmiss
  cases hl : mapLoad c.prices k with
  | none =>
      have hout : GetPriceFor c k now
          = ⟨0, some ("getting price from service : " ++ e), c, [k]⟩ := by
        simp [GetPriceFor, hl, fetchFromService, herr]
      rw [hout]
      refine ⟨rfl, rfl, hl, fun k' _ => rfl, fun now' => ?_⟩
      simp [GetPriceFor, hl, fetchFromService_serviceCalls]
  | some v =>
      cases v with
      | entry en =>
          rw [hl] at hmiss
          have hexp : en.timestamp + c.maxAge ≤ now := by simpa using hmiss
          have hnv : ¬ now < en.timestamp + c.maxAge := not_lt.mpr hexp
          have hout : GetPriceFor c k now
              = ⟨0, some ("getting price from service : " ++ e),
                  ⟨c.actualPriceService, c.maxAge, mapDelete c.prices k⟩,
                  [k]⟩ := by
            simp [GetPriceFor, hl, hnv, fetchFromService, herr]
          rw [hout]
          refine ⟨rfl, rfl, mapLoad_mapDelete_self c.prices k,
            fun k' hk' => mapLoad_mapDelete_other c.prices k k' hk',
            fun now' => ?_⟩
          simp [GetPriceFor, mapLoad_mapDelete_self,
            fetchFromService_serviceCalls]
      | float q => rw [hl] at hmiss; simp at hmiss

def svcFlaky : String → Except GoError Price := fun _ => .error "timeout"

def cacheFlaky : TransparentCache :=
  ⟨svcFlaky, 10, [("banana", .entry ⟨3, 0⟩)]⟩

/-- C3 amended witness: the upstream fails for a cold key, the error is
returned, nothing is stored for the key, the other key is untouched, and
a subsequent call invokes the upstream again. -/
theorem getPriceFor_failure_stores_nothing_witness :
    hasNoValidEntry cacheFlaky "apple" 5 = true ∧
    cacheFlaky.actualPriceService "apple" = .error "timeout" ∧
    (GetPriceFor cacheFlaky "apple" 5).error
      = some ("getting price from service : " ++ "timeout") ∧
    mapLoad (GetPriceFor cacheFlaky "apple" 5).cache.prices "apple"
      = none ∧
    mapLoad (GetPriceFor cacheFlaky "apple" 5).cache.prices "banana"
      = mapLoad cacheFlaky.prices "banana" ∧
    GetPriceOut.serviceCalls
      (GetPriceFor (GetPriceFor cacheFlaky "apple" 5).cache "apple" 6)
      = ["apple"] := by
  have h := getPriceFor_failure_stores_nothing cacheFlaky "apple" 5 "timeout"
    (by decide) rfl
  exact ⟨by decide, rfl, h.1, h.2.2.1,
    h.2.2.2.1 "banana" (by decide), h.2.2.2.2 6⟩

/-! ### C7: error wrapping — corrected -/

def svcDeadline : String → Except GoError Price :=
  fun _ => .error "context deadline exceeded"

def cacheDeadline : TransparentCache := ⟨svcDeadline, 10, []⟩

/-- C7 counterexample: the claim says the returned error identifies which
item code failed.  Failing lookups for the two different item codes
"itemA" and "itemB" return literally identical errors, so the error
cannot identify the failing item code. -/
theorem getPriceFor_error_lacks_item_code :
    (GetPriceFor cacheDeadline "itemA" 0).error.isSome = true ∧
    (GetPriceFor cacheDeadline "itemB" 0).error.isSome = true ∧
    (GetPriceFor cacheDeadline "itemA" 0).error
      = (GetPriceFor cacheDeadline "itemB" 0).error := by
  exact ⟨by decide, by decide, by decide⟩

/-- C7 amended: when the upstream lookup for `k` fails with error `e`,
`GetPriceFor(k)` returns an error that wraps the upstream failure — the
message is the annotation "getting price from service : " followed by the
unmodified upstream error text, so the original error is not masked — but
the message does not include the failing item code. -/
theorem getPriceFor_error_wraps_upstream (c : TransparentCache)
    (k : String) (now : Time) (e : GoError)
    (hmiss : hasNoValidEntry c k now = true)
    (herr : c.actualPriceService k = .error e) :
    (GetPriceFor c k now).error
      = some ("getting price from service : " ++ e) := by
  unfold hasNoValidEntry at hmiss
  cases hl : mapLoad c.prices k with
  | none => simp [GetPriceFor, hl, fetchFromService, herr]
  | some v =>
      cases v with
      | entry en =>
          rw [hl] at hmiss
          have hexp : en.timestamp + c.maxAge ≤ now := by simpa using hmiss
          have hnv : ¬ now < en.timestamp + c.maxAge := not_lt.mpr hexp
          simp [GetPriceFor, hl, hnv, fetchFromService, herr]
      | float q => rw [hl] at hmiss; simp at hmiss

/-- C7 amended witness: the wrapped message for a concrete failure. -/
theorem getPriceFor_error_wraps_upstream_witness :
    hasNoValidEntry cacheDeadline "itemA" 0 = true ∧
    cacheDeadline.actualPriceService "itemA"
      = .error "context deadline exceeded" ∧
    (GetPriceFor cacheDeadline "itemA" 0).error
      = some ("getting price from service : "
          ++ "context deadline exceeded") :=
  ⟨by decide, rfl,
    getPriceFor_error_wraps_upstream cacheDeadline "itemA" 0
      "context deadline exceeded" (by decide) rfl⟩

/-! ### Batch resolver: per-task outcomes (spec-side characterization) -/

/-- The (price, error) outcome of each errgroup task of `GetPricesFor`,
in completion order, with the cache threaded through exactly as the batch
run threads it. -/
def taskOutcomes (c : TransparentCache) (sched : List (String × Time)) :
    List (Price × Option GoError) :=
  match sched with
  | [] => []
  | (itemCode, now) :: rest =>
      let out := GetPriceFor c itemCode now
      (out.price, out.error) :: taskOutcomes out.cache rest

/-- Spec-side: the prices collected from the tasks that succeeded, in
completion order (a failed task contributes nothing, in particular no
zero-valued placeholder). -/
def succeededPrices (outs : List (Price × Option GoError)) : List Price :=
  outs.filterMap fun po =>
    match po.2 with
    | none => some po.1
    | some _ => none

/-- Spec-side: the first error observed among the task outcomes. -/
def firstObservedError (outs : List (Price × Option GoError)) :
    Option GoError :=
  (outs.filterMap fun po => po.2).head?

theorem taskOutcomes_length (c : TransparentCache)
    (sched : List (String × Time)) :
    (taskOutcomes c sched).length = sched.length := by
  induction sched generalizing c with
  | nil => rfl
  | cons task rest ih =>
      obtain ⟨itemCode, now⟩ := task
      simp [taskOutcomes, ih]

theorem GetPricesFor_prices_eq (c : TransparentCache)
    (sched : List (String × Time)) :
    (GetPricesFor c sched).prices = succeededPrices (taskOutcomes c sched) := by
  induction sched generalizing c with
  | nil => rfl
  | cons task rest ih =>
      obtain ⟨itemCode, now⟩ := task
      cases h : (GetPriceFor c itemCode now).error with
      | none => simp [GetPricesFor, taskOutcomes, succeededPrices, h, ih]
      | some e => simp [GetPricesFor, taskOutcomes, succeededPrices, h, ih]

theorem GetPricesFor_error_eq (c : TransparentCache)
    (sched : List (String × Time)) :
    (GetPricesFor c sched).error = firstObservedError (taskOutcomes c sched) := by
  induction sched generalizing c with
  | nil => rfl
  | cons task rest ih =>
      obtain ⟨itemCode, now⟩ := task
      cases h : (GetPriceFor c itemCode now).error with
      | none => simp [GetPricesFor, taskOutcomes, firstObservedError, h, ih]
      | some e => simp [GetPricesFor, taskOutcomes, firstObservedError, h]

theorem firstObservedError_isSome
    (outs : List (Price × Option GoError))
    (h : outs.any (fun po => po.2.isSome) = true) :
    (firstObservedError outs).isSome = true := by
  induction outs with
  | nil => simp at h
  | cons po rest ih =>
      cases hpo : po.2 with
      | some e => simp [firstObservedError, hpo]
      | none =>
          rw [List.any_cons, hpo] at h
          simp only [Option.isSome_none, Bool.false_or] at h
          simpa [firstObservedError, hpo] using ih h

theorem succeededPrices_length_lt
    (outs : List (Price × Option GoError))
    (h : outs.any (fun po => po.2.isSome) = true) :
    (succeededPrices outs).length < outs.length := by
  induction outs with
  | nil => simp at h
  | cons po rest ih =>
      cases hpo : po.2 with
      | some e =>
          have hle := List.length_filterMap_le
            (fun po : Price × Option GoError =>
              match po.2 with
              | none => some po.1
              | some _ => none) rest
          simp only [succeededPrices, List.filterMap_cons, hpo]
          simpa [succeededPrices] using Nat.lt_succ_of_le hle
      | none =>
          rw [List.any_cons, hpo] at h
          simp only [Option.isSome_none, Bool.false_or] at h
          have := ih h
          simp only [succeededPrices, List.filterMap_cons, hpo]
          simpa [succeededPrices] using Nat.succ_lt_succ this

theorem mem_succeededPrices
    (outs : List (Price × Option GoError)) (p : Price)
    (h : p ∈ succeededPrices outs) :
    ∃ po ∈ outs, po.2 = none ∧ po.1 = p := by
  rw [succeededPrices, List.mem_filterMap] at h
  obtain ⟨po, hmem, hf⟩ := h
  cases hpo : po.2 with
  | none =>
      rw [hpo] at hf
      exact ⟨po, hmem, hpo, by simpa using hf⟩
  | some e => rw [hpo] at hf; simp at hf

/-! ### C4: batch with at least one failing task -/

/-- C4: when at least one task of a `GetPricesFor` run fails, the batch
returns a non-nil error — the first one observed — together with exactly
the prices collected from the tasks that succeeded: the returned
collection is strictly shorter than the request and every element of it
is the price of a succeeded task, so no zero-valued placeholder stands in
for any failed item. -/
theorem getPricesFor_partial_failure (c : TransparentCache)
    (sched : List (String × Time))
    (hfail : (taskOutcomes c sched).any (fun po => po.2.isSome) = true) :
    (GetPricesFor c sched).error.isSome = true ∧
    (GetPricesFor c sched).error
      = firstObservedError (taskOutcomes c sched) ∧
    (GetPricesFor c sched).prices
      = succeededPrices (taskOutcomes c sched) ∧
    (GetPricesFor c sched).prices.length < sched.length ∧
    ∀ p ∈ (GetPricesFor c sched).prices,
      ∃ po ∈ taskOutcomes c sched, po.2 = none ∧ po.1 = p := by
  refine ⟨?_, GetPricesFor_error_eq c sched, GetPricesFor_prices_eq c sched,
    ?_, ?_⟩
  · rw [GetPricesFor_error_eq]
    exact firstObservedError_isSome _ hfail
  · rw [GetPricesFor_prices_eq]
    have := succeededPrices_length_lt _ hfail
    rwa [taskOutcomes_length] at this
  · intro p hp
    rw [GetPricesFor_prices_eq] at hp
    exact mem_succeededPrices _ p hp

def svcFailB : String → Except GoError Price :=
  fun k => if k = "B" then .error "boom" else .ok 5

def cacheFailB : TransparentCache := ⟨svcFailB, 10, []⟩

/-- C4 witness: a concrete two-item batch in which item "B" fails. -/
theorem getPricesFor_partial_failure_witness :
    (taskOutcomes cacheFailB [("A", 0), ("B", 0)]).any
      (fun po => po.2.isSome) = true ∧
    (GetPricesFor cacheFailB [("A", 0), ("B", 0)]).error.isSome = true ∧
    (GetPricesFor cacheFailB [("A", 0), ("B", 0)]).prices
      = succeededPrices (taskOutcomes cacheFailB [("A", 0), ("B", 0)]) ∧
    (GetPricesFor cacheFailB [("A", 0), ("B", 0)]).prices.length < 2 := by
  have h := getPricesFor_partial_failure cacheFailB [("A", 0), ("B", 0)]
    (by decide)
  exact ⟨by decide, h.1, h.2.2.1, h.2.2.2.1⟩

/-! ### C10: empty batch -/

/-- C10: `GetPricesFor` with zero item codes returns an empty result
collection and no error, makes no upstream call, and leaves the cache —
in particular the entry store — unchanged. -/
theorem getPricesFor_empty (c : TransparentCache) :
    GetPricesFor c [] = ⟨[], none, c, []⟩ := rfl

/-! ### C5: all-success batch returns each item's price, up to order -/

/-- The price the upstream service currently reports for `k` (0 if the
lookup fails; only used under a success hypothesis). -/
def svcPriceOf (svc : String → Except GoError Price) (k : String) : Price :=
  match svc k with
  | .ok p => p
  | .error _ => 0

/-- A cache is coherent when every stored value is a `PriceCacheEntry`
whose price is what the upstream currently reports for its key.  A fresh
cache is coherent, and caches populated only by successful fetches from a
fixed upstream stay coherent. -/
def coherent (c : TransparentCache) : Prop :=
  ∀ k v, mapLoad c.prices k = some v →
    ∃ e, v = StoredValue.entry e ∧ c.actualPriceService k = .ok e.price

theorem coherent_after_store (c : TransparentCache) (k : String)
    (p : Price) (t : Time)
    (hcoh : coherent c) (hok : c.actualPriceService k = .ok p) :
    coherent ⟨c.actualPriceService, c.maxAge,
      mapStore c.prices k (.entry ⟨p, t⟩)⟩ := by
  intro k' v' hl'
  by_cases hk : k' = k
  · subst hk
    rw [show (⟨c.actualPriceService, c.maxAge,
        mapStore c.prices k' (.entry ⟨p, t⟩)⟩ :
        TransparentCache).prices
        = mapStore c.prices k' (.entry ⟨p, t⟩) from rfl,
      mapLoad_mapStore_self] at hl'
    cases hl'
    exact ⟨⟨p, t⟩, rfl, hok⟩
  · rw [show (⟨c.actualPriceService, c.maxAge,
        mapStore c.prices k (.entry ⟨p, t⟩)⟩ :
        TransparentCache).prices
        = mapStore c.prices k (.entry ⟨p, t⟩) from rfl,
      mapLoad_mapStore_other c.prices k k' _ hk] at hl'
    exact hcoh k' v' hl'

theorem coherent_after_delete (c : TransparentCache) (k : String)
    (hcoh : coherent c) :
    coherent ⟨c.actualPriceService, c.maxAge, mapDelete c.prices k⟩ := by
  intro k' v' hl'
  by_cases hk : k' = k
  · subst hk
    rw [show (⟨c.actualPriceService, c.maxAge, mapDelete c.prices k'⟩ :
        TransparentCache).prices = mapDelete c.prices k' from rfl,
      mapLoad_mapDelete_self] at hl'
    cases hl'
  · rw [show (⟨c.actualPriceService, c.maxAge, mapDelete c.prices k⟩ :
        TransparentCache).prices = mapDelete c.prices k from rfl,
      mapLoad_mapDelete_other c.prices k k' hk] at hl'
    exact hcoh k' v' hl'

/-- On a coherent cache, a `GetPriceFor` call for a key the upstream
resolves to `p` returns `p` without error and leaves a coherent cache
with the same upstream service. -/
theorem getPriceFor_coherent_ok (c : TransparentCache) (k : String)
    (now : Time) (p : Price)
    (hcoh : coherent c) (hok : c.actualPriceService k = .ok p) :
    (GetPriceFor c k now).price = p ∧
    (GetPriceFor c k now).error = none ∧
    coherent (GetPriceFor c k now).cache ∧
    (GetPriceFor c k now).cache.actualPriceService
      = c.actualPriceService := by
  cases hl : mapLoad c.prices k with
  | none =>
      have hout : GetPriceFor c k now
          = ⟨p, none, ⟨c.actualPriceService, c.maxAge,
              mapStore c.prices k (.entry ⟨p, now⟩)⟩, [k]⟩ := by
        simp [GetPriceFor, hl, fetchFromService, hok]
      rw [hout]
      exact ⟨rfl, rfl, coherent_after_store c k p now hcoh hok, rfl⟩
  | some v =>
      obtain ⟨en, rfl, hsvc⟩ := hcoh k v hl
      have hp : en.price = p := by
        rw [hsvc] at hok
        exact (Except.ok.injEq _ _).mp hok
      by_cases hv : now < en.timestamp + c.maxAge
      · have hout : GetPriceFor c k now = ⟨en.price, none, c, []⟩ := by
          simp [GetPriceFor, hl, hv]
        rw [hout]
        exact ⟨hp, rfl, hcoh, rfl⟩
      · have hcoh' := coherent_after_delete c k hcoh
        have hout : GetPriceFor c k now
            = ⟨p, none, ⟨c.actualPriceService, c.maxAge,
                mapStore (mapDelete c.prices k) k (.entry ⟨p, now⟩)⟩,
                [k]⟩ := by
          simp [GetPriceFor, hl, hv, fetchFromService, hok]
        rw [hout]
        refine ⟨rfl, rfl, ?_, rfl⟩
        exact coherent_after_store
          ⟨c.actualPriceService, c.maxAge, mapDelete c.prices k⟩ k p now
          hcoh' hok

/-- On a coherent cache whose upstream resolves every scheduled item,
the batch run returns, in completion order, exactly each task's upstream
price, with no error. -/
theorem GetPricesFor_all_ok (c : TransparentCache)
    (sched : List (String × Time))
    (hcoh : coherent c)
    (hok : ∀ kt ∈ sched, (c.actualPriceService kt.1).isOk = true) :
    (GetPricesFor c sched).prices
      = sched.map (fun kt => svcPriceOf c.actualPriceService kt.1) ∧
    (GetPricesFor c sched).error = none := by
  induction sched generalizing c with
  | nil => exact ⟨rfl, rfl⟩
  | cons task rest ih =>
      obtain ⟨k, t⟩ := task
      have hkOk : (c.actualPriceService k).isOk = true :=
        hok (k, t) (List.mem_cons_self _ _)
      obtain ⟨p, hp⟩ : ∃ p, c.actualPriceService k = .ok p := by
        cases hs : c.actualPriceService k with
        | ok q => exact ⟨q, rfl⟩
        | error e =>
            rw [hs] at hkOk
            simp [Except.isOk, Except.toBool] at hkOk
      obtain ⟨hprice, herr, hcoh', hsvc'⟩ :=
        getPriceFor_coherent_ok c k t p hcoh hp
      have hok' : ∀ kt ∈ rest,
          ((GetPriceFor c k t).cache.actualPriceService kt.1).isOk
            = true := by
        intro kt hm
        rw [hsvc']
        exact hok kt (List.mem_cons_of_mem _ hm)
      obtain ⟨hrest, herrRest⟩ := ih (GetPriceFor c k t).cache hcoh' hok'
      rw [hsvc'] at hrest
      have hfirst : svcPriceOf c.actualPriceService k = p := by
        simp [svcPriceOf, hp]
      constructor
      · simp [GetPricesFor, herr, hrest, hprice, hfirst]
      · simp [GetPricesFor, herr, herrRest]

/-- C5: for a coherent cache (e.g. a fresh one) whose upstream resolves
every requested item, a `GetPricesFor` run over any completion order
`sched` of the requested tasks returns no error, and the returned values
are a permutation of — hence the same multiset as — the requested items'
upstream prices; in particular the result has one element per requested
item code, independent of the order in which results were appended. -/
theorem getPricesFor_all_success_perm (c : TransparentCache)
    (tasks sched : List (String × Time))
    (hperm : sched.Perm tasks)
    (hcoh : coherent c)
    (hok : ∀ kt ∈ tasks, (c.actualPriceService kt.1).isOk = true) :
    (GetPricesFor c sched).error = none ∧
    (GetPricesFor c sched).prices.Perm
      (tasks.map (fun kt => svcPriceOf c.actualPriceService kt.1)) ∧
    (GetPricesFor c sched).prices.length = tasks.length := by
  have hok' : ∀ kt ∈ sched, (c.actualPriceService kt.1).isOk = true :=
    fun kt hm => hok kt (hperm.subset hm)
  obtain ⟨hp, he⟩ := GetPricesFor_all_ok c sched hcoh hok'
  refine ⟨he, ?_, ?_⟩
  · rw [hp]
    exact hperm.map _
  · rw [hp]
    simp [hperm.length_eq]

def svcABC : String → Except GoError Price :=
  fun k => if k = "A" then .ok 5 else if k = "B" then .ok 6 else .ok 7

def cacheABC : TransparentCache := ⟨svcABC, 10, []⟩

/-- C5 witness: a three-item batch on a fresh cache, run in a completion
order different from the request order, returns a permutation of the
three upstream prices and no error. -/
theorem getPricesFor_all_success_perm_witness :
    List.Perm [("B", (0 : Time)), ("C", 0), ("A", 0)]
      [("A", (0 : Time)), ("B", 0), ("C", 0)] ∧
    (GetPricesFor cacheABC [("B", 0), ("C", 0), ("A", 0)]).error = none ∧
    (GetPricesFor cacheABC [("B", 0), ("C", 0), ("A", 0)]).prices.Perm
      ([("A", (0 : Time)), ("B", 0), ("C", 0)].map
        (fun kt => svcPriceOf cacheABC.actualPriceService kt.1)) ∧
    (GetPricesFor cacheABC [("B", 0), ("C", 0), ("A", 0)]).prices.length
      = 3 := by
  have h := getPricesFor_all_success_perm cacheABC
    [("A", (0 : Time)), ("B", 0), ("C", 0)]
    [("B", (0 : Time)), ("C", 0), ("A", 0)]
    (by decide)
    (by intro k v hl; simp [cacheABC, mapLoad] at hl)
    (by decide)
  exact ⟨by decide, h.1, h.2.1, h.2.2⟩

/-! ### C8: only the prices map is ever mutated -/

theorem GetPricesFor_config (c : TransparentCache)
    (sched : List (String × Time)) :
    (GetPricesFor c sched).cache.actualPriceService
      = c.actualPriceService ∧
    (GetPricesFor c sched).cache.maxAge = c.maxAge := by
  induction sched generalizing c with
  | nil => exact ⟨rfl, rfl⟩
  | cons task rest ih =>
      obtain ⟨k, t⟩ := task
      have hcache : (GetPricesFor c ((k, t) :: rest)).cache
          = (GetPricesFor (GetPriceFor c k t).cache rest).cache := by
        cases h : (GetPriceFor c k t).error <;> simp [GetPricesFor, h]
      have h1 := GetPriceFor_config c k t
      have h2 := ih (GetPriceFor c k t).cache
      rw [hcache]
      exact ⟨h2.1.trans h1.1, h2.2.trans h1.2⟩

/-- One public call on the cache: a `GetPriceFor` with its captured
`now`, or a `GetPricesFor` with its tasks in completion order. -/
inductive CacheCall where
  | single : String → Time → CacheCall
  | batch : List (String × Time) → CacheCall

/-- The cache state after performing one public call. -/
def applyCall (c : TransparentCache) : CacheCall → TransparentCache
  | .single k now => (GetPriceFor c k now).cache
  | .batch sched => (GetPricesFor c sched).cache

/-- The cache state after performing a sequence of public calls. -/
def applyCalls (c : TransparentCache) : List CacheCall → TransparentCache
  | [] => c
  | call :: rest => applyCalls (applyCall c call) rest

/-- C8: across every sequence of `GetPriceFor` and `GetPricesFor` calls,
the cache's `maxAge` and its injected upstream price service are
unchanged: of the three fields of `TransparentCache`, only the `prices`
entry store is ever mutated by the public operations. -/
theorem cache_config_immutable (c : TransparentCache)
    (calls : List CacheCall) :
    (applyCalls c calls).actualPriceService = c.actualPriceService ∧
    (applyCalls c calls).maxAge = c.maxAge := by
  induction calls generalizing c with
  | nil => exact ⟨rfl, rfl⟩
  | cons call rest ih =>
      have h1 : (applyCall c call).actualPriceService
            = c.actualPriceService ∧
          (applyCall c call).maxAge = c.maxAge := by
        cases call with
        | single k t => exact GetPriceFor_config c k t
        | batch sched => exact GetPricesFor_config c sched
      have h2 := ih (applyCall c call)
      exact ⟨h2.1.trans h1.1, h2.2.trans h1.2⟩

/-! ### C9: the type-assertion failure branch is unreachable -/

/-- Every value in the prices map is a `PriceCacheEntry` (no raw value of
another dynamic type), so the type assertion in `GetPriceFor` succeeds. -/
def wellTyped (c : TransparentCache) : Prop :=
  ∀ k v, mapLoad c.prices k = some v → ∃ e, v = StoredValue.entry e

theorem wellTyped_after_store (c : TransparentCache) (k : String)
    (e : PriceCacheEntry) (hwt : wellTyped c) :
    wellTyped ⟨c.actualPriceService, c.maxAge,
      mapStore c.prices k (.entry e)⟩ := by
  intro k' v' hl'
  by_cases hk : k' = k
  · subst hk
    rw [show (⟨c.actualPriceService, c.maxAge,
        mapStore c.prices k' (.entry e)⟩ : TransparentCache).prices
        = mapStore c.prices k' (.entry e) from rfl,
      mapLoad_mapStore_self] at hl'
    cases hl'
    exact ⟨e, rfl⟩
  · rw [show (⟨c.actualPriceService, c.maxAge,
        mapStore c.prices k (.entry e)⟩ : TransparentCache).prices
        = mapStore c.prices k (.entry e) from rfl,
      mapLoad_mapStore_other c.prices k k' _ hk] at hl'
    exact hwt k' v' hl'

theorem wellTyped_after_delete (c : TransparentCache) (k : String)
    (hwt : wellTyped c) :
    wellTyped ⟨c.actualPriceService, c.maxAge, mapDelete c.prices k⟩ := by
  intro k' v' hl'
  by_cases hk : k' = k
  · subst hk
    rw [show (⟨c.actualPriceService, c.maxAge, mapDelete c.prices k'⟩ :
        TransparentCache).prices = mapDelete c.prices k' from rfl,
      mapLoad_mapDelete_self] at hl'
    cases hl'
  · rw [show (⟨c.actualPriceService, c.maxAge, mapDelete c.prices k⟩ :
        TransparentCache).prices = mapDelete c.prices k from rfl,
      mapLoad_mapDelete_other c.prices k k' hk] at hl'
    exact hwt k' v' hl'

theorem wellTyped_fetchFromService (c : TransparentCache) (k : String)
    (now : Time) (hwt : wellTyped c) :
    wellTyped (fetchFromService c k now).cache := by
  cases hs : c.actualPriceService k with
  | error e => simpa [fetchFromService, hs] using hwt
  | ok p =>
      have := wellTyped_after_store c k ⟨p, now⟩ hwt
      simpa [fetchFromService, hs] using this

theorem wellTyped_GetPriceFor (c : TransparentCache) (k : String)
    (now : Time) (hwt : wellTyped c) :
    wellTyped (GetPriceFor c k now).cache := by
  cases hl : mapLoad c.prices k with
  | none =>
      have := wellTyped_fetchFromService c k now hwt
      simpa [GetPriceFor, hl] using this
  | some v =>
      cases v with
      | entry en =>
          by_cases hv : now < en.timestamp + c.maxAge
          · simpa [GetPriceFor, hl, hv] using hwt
          · have hwt' := wellTyped_after_delete c k hwt
            have := wellTyped_fetchFromService
              ⟨c.actualPriceService, c.maxAge, mapDelete c.prices k⟩ k now
              hwt'
            simpa [GetPriceFor, hl, hv] using this
      | float q => simpa [GetPriceFor, hl] using hwt

theorem wellTyped_GetPricesFor (c : TransparentCache)
    (sched : List (String × Time)) (hwt : wellTyped c) :
    wellTyped (GetPricesFor c sched).cache := by
  induction sched generalizing c with
  | nil => simpa [GetPricesFor] using hwt
  | cons task rest ih =>
      obtain ⟨k, t⟩ := task
      have hcache : (GetPricesFor c ((k, t) :: rest)).cache
          = (GetPricesFor (GetPriceFor c k t).cache rest).cache := by
        cases h : (GetPriceFor c k t).error <;> simp [GetPricesFor, h]
      rw [hcache]
      exact ih _ (wellTyped_GetPriceFor c k t hwt)

theorem wellTyped_applyCalls (c : TransparentCache)
    (calls : List CacheCall) (hwt : wellTyped c) :
    wellTyped (applyCalls c calls) := by
  induction calls generalizing c with
  | nil => exact hwt
  | cons call rest ih =>
      refine ih (applyCall c call) ?_
      cases call with
      | single k t => exact wellTyped_GetPriceFor c k t hwt
      | batch sched => exact wellTyped_GetPricesFor c sched hwt

theorem service_error_ne_cast_error (e : GoError) :
    "getting price from service : " ++ e ≠ "error when casting" := by
  intro h
  have hlen : ("getting price from service : " ++ e).length
      = ("error when casting" : String).length := congrArg String.length h
  rw [String.length_append] at hlen
  have h1 : ("getting price from service : " : String).length = 29 := by
    decide
  have h2 : ("error when casting" : String).length = 18 := by decide
  omega

theorem getPriceFor_error_ne_cast (c : TransparentCache) (k : String)
    (now : Time) (hwt : wellTyped c) :
    (GetPriceFor c k now).error ≠ some "error when casting" := by
  have hfetch : ∀ c' : TransparentCache,
      (fetchFromService c' k now).error ≠ some "error when casting" := by
    intro c'
    cases hs : c'.actualPriceService k with
    | error e =>
        simp only [fetchFromService, hs]
        intro hcontra
        have heq : "getting price from service : " ++ e
            = "error when casting" := by injection hcontra
        exact service_error_ne_cast_error e heq
    | ok p => simp [fetchFromService, hs]
  cases hl : mapLoad c.prices k with
  | none =>
      have := hfetch c
      simpa [GetPriceFor, hl] using this
  | some v =>
      cases v with
      | entry en =>
          by_cases hv : now < en.timestamp + c.maxAge
          · simp [GetPriceFor, hl, hv]
          · have := hfetch
              ⟨c.actualPriceService, c.maxAge, mapDelete c.prices k⟩
            simpa [GetPriceFor, hl, hv] using this
      | float q =>
          obtain ⟨e, he⟩ := hwt k (.float q) hl
          cases he

/-- C9: starting from a freshly constructed cache and performing any
sequence of `GetPriceFor` / `GetPricesFor` calls, every value held in the
prices map is a `PriceCacheEntry`, so the type-assertion-failure branch
of `GetPriceFor` is unreachable: no call ever returns the
"error when casting" error. -/
theorem getPriceFor_cast_error_unreachable
    (svc : String → Except GoError Price) (maxAge : Duration)
    (calls : List CacheCall) (k : String) (now : Time) :
    ((GetPriceFor (applyCalls (NewTransparentCache svc maxAge) calls)
        k now).error == some "error when casting") = false := by
  rw [beq_eq_false_iff_ne]
  refine getPriceFor_error_ne_cast _ k now ?_
  refine wellTyped_applyCalls _ calls ?_
  intro k' v' hl'
  simp [NewTransparentCache, mapLoad] at hl'

end Sample1
